import Mathlib

/-!
Verification development for the loglinter repository: a shallow embedding of
the rule functions (internal/rules), the analyzer's call-site classifier and
message resolver (internal/analyzer), and the suggested-fix routines, together
with theorems settling the specification claims about them.

Go strings are modelled as Lean `String` (sequences of runes); Go's byte-level
UTF-8 handling is modelled at the rune level, with `utf8.RuneError` represented
by the replacement character U+FFFD.
-/

namespace Loglinter

/-! ## Character constants and Go unicode-package models -/

def quoteChar : Char := Char.ofNat 0x22

def apostropheChar : Char := Char.ofNat 0x27

def backslashChar : Char := Char.ofNat 0x5C

def backquoteChar : Char := Char.ofNat 0x60

/-- `utf8.RuneError` (U+FFFD), the value `utf8.DecodeRuneInString` returns on a
malformed encoding (and for a well-formed encoding of U+FFFD itself). -/
def runeError : Char := Char.ofNat 0xFFFD

def inRange (n lo hi : Nat) : Bool := decide (lo ≤ n ∧ n ≤ hi)

/-- Model of Go `unicode.IsSpace`: the complete Unicode White_Space set. -/
def goIsSpace (c : Char) : Bool :=
  inRange c.toNat 0x9 0xD || c.toNat == 0x20 || c.toNat == 0x85 || c.toNat == 0xA0 ||
  c.toNat == 0x1680 || inRange c.toNat 0x2000 0x200A || c.toNat == 0x2028 ||
  c.toNat == 0x2029 || c.toNat == 0x202F || c.toNat == 0x205F || c.toNat == 0x3000

/-- Model of Go `unicode.IsUpper` (Unicode category Lu), restricted to the
Basic Latin, Latin-1 Supplement, Greek and Cyrillic blocks exercised in this
development; Lu code points in other blocks are not represented. -/
def goIsUpper (c : Char) : Bool :=
  inRange c.toNat 0x41 0x5A ||
  inRange c.toNat 0xC0 0xD6 || inRange c.toNat 0xD8 0xDE ||
  c.toNat == 0x386 || inRange c.toNat 0x388 0x38A || c.toNat == 0x38C ||
  inRange c.toNat 0x38E 0x38F || inRange c.toNat 0x391 0x3A1 ||
  inRange c.toNat 0x3A3 0x3AB ||
  inRange c.toNat 0x400 0x42F

/-- Model of Go `unicode.ToLower` (used through `strings.ToLower`) on the same
blocks: ASCII, Latin-1, Greek capitals and Cyrillic; identity elsewhere. -/
def toLowerGo (c : Char) : Char :=
  if inRange c.toNat 0x41 0x5A then Char.ofNat (c.toNat + 0x20)
  else if inRange c.toNat 0xC0 0xD6 || inRange c.toNat 0xD8 0xDE then Char.ofNat (c.toNat + 0x20)
  else if inRange c.toNat 0x391 0x3A1 || inRange c.toNat 0x3A3 0x3AB then
    Char.ofNat (c.toNat + 0x20)
  else if inRange c.toNat 0x410 0x42F then Char.ofNat (c.toNat + 0x20)
  else if inRange c.toNat 0x400 0x40F then Char.ofNat (c.toNat + 0x50)
  else c

def strToLower (s : String) : String := String.mk (s.data.map toLowerGo)

/-- Model of Go `unicode.IsPunct` on ASCII (exact); in this codebase the
predicate is only ever evaluated on ASCII runes (`CheckSpecialChars` guards it
with `r <= unicode.MaxASCII`, and `cleanSpecialMessage` drops non-ASCII runes
first), so non-ASCII code points are not represented. -/
def goIsPunct (c : Char) : Bool :=
  c ∈ ([ '!', '#', '%', '&', '(', ')', '*', ',', '-', '.', '/',
         ':', ';', '?', '@', '[', ']', '_', '{', '}' ] : List Char) ||
  c == quoteChar || c == apostropheChar || c == backslashChar

/-- Model of Go `unicode.IsSymbol` on ASCII (exact: `$ + < = > ^ backtick | ~`);
non-ASCII symbol code points are not represented — in `CheckSpecialChars` a
non-ASCII rune can only be reported through `isEmoji`, because the forbidden
set only ever contains ASCII characters, so this cannot change any result. -/
def goIsSymbol (c : Char) : Bool :=
  c ∈ ([ '$', '+', '<', '=', '>', '^', '|', '~' ] : List Char) || c == backquoteChar

/-- Model of `unicode.Is(unicode.So, r)` on the code points exercised here:
false on all of ASCII (exact — ASCII has no So characters) and on the
pictograph ranges already listed explicitly in `isEmoji`; of the remaining So
code points only a few common ones are represented. -/
def goSo (c : Char) : Bool :=
  c.toNat == 0xA9 || c.toNat == 0xAE || c.toNat == 0xB0 || c.toNat == 0x2122 ||
  inRange c.toNat 0x2600 0x27BF || inRange c.toNat 0x1F300 0x1FAFF

/-! ## Go strings-package models -/

/-- Go `strings.Contains` on rune lists. -/
def containsList (sub : List Char) : List Char → Bool
  | [] => sub.isEmpty
  | c :: rest => sub.isPrefixOf (c :: rest) || containsList sub rest

def containsStr (s sub : String) : Bool := containsList sub.data s.data

def hasPrefixStr (s pre : String) : Bool := pre.data.isPrefixOf s.data

/-- One pass of Go `strings.ReplaceAll` with a non-empty pattern, fuelled so the
definition is structurally recursive; each step consumes at least one character,
so fuel equal to the input length is always enough. -/
def replFuel (pat rep : List Char) : Nat → List Char → List Char
  | _, [] => []
  | 0, l => l
  | n + 1, c :: rest =>
    if pat.isPrefixOf (c :: rest) then
      rep ++ replFuel pat rep n (List.drop (pat.length - 1) rest)
    else
      c :: replFuel pat rep n rest

/-- Go `strings.ReplaceAll`; the patterns used in this codebase are never
empty, and for a non-empty pattern it replaces non-overlapping occurrences
left to right. -/
def goReplaceAll (s pat rep : String) : String :=
  if pat.data.isEmpty then s
  else String.mk (replFuel pat.data rep.data s.data.length s.data)

def dropWhileEnd (p : Char → Bool) : List Char → List Char
  | [] => []
  | c :: rest =>
    let r := dropWhileEnd p rest
    if r.isEmpty && p c then [] else c :: r

/-- Go `strings.TrimSpace` (trim Unicode white space from both ends). -/
def trimSpaceStr (s : String) : String :=
  String.mk (dropWhileEnd goIsSpace (s.data.dropWhile goIsSpace))

/-- Go `strings.Trim` with a one-character cutset. -/
def trimCutset (cut : Char) : List Char → List Char :=
  fun l => dropWhileEnd (fun c => c == cut) (l.dropWhile (fun c => c == cut))

/-- Go `strings.TrimPrefix` with a one-character pattern. -/
def trimOneLeading (cut : Char) : List Char → List Char
  | [] => []
  | c :: rest => if c == cut then rest else c :: rest

/-- Go `strings.TrimSuffix` with a one-character pattern. -/
def trimOneTrailing (cut : Char) : List Char → List Char
  | [] => []
  | c :: rest =>
    let r := trimOneTrailing cut rest
    if rest.isEmpty then (if c == cut then [] else [c]) else c :: r

/-- Go `strings.FieldsFunc`: the maximal runs of characters not satisfying
`p`, in order, with empty runs dropped. -/
def fieldsFuncAux (p : Char → Bool) : List Char → List Char → List String
  | cur, [] => if cur.isEmpty then [] else [String.mk cur.reverse]
  | cur, c :: rest =>
    if p c then
      if cur.isEmpty then fieldsFuncAux p [] rest
      else String.mk cur.reverse :: fieldsFuncAux p [] rest
    else fieldsFuncAux p (c :: cur) rest

def fieldsFunc (p : Char → Bool) (s : String) : List String := fieldsFuncAux p [] s.data

/-! ## Diagnostic strings (the `fmt.Sprintf` calls of the rules package) -/

/-- Model of the `%q` verb applied to a rune, for printable runes and the
escape sequences exercised here. -/
def goQuoteRune (r : Char) : String :=
  let esc : List Char :=
    if r == apostropheChar then [backslashChar, apostropheChar]
    else if r == backslashChar then [backslashChar, backslashChar]
    else if r == '\n' then [backslashChar, 'n']
    else if r == '\t' then [backslashChar, 't']
    else [r]
  String.mk (apostropheChar :: esc ++ [apostropheChar])

def escStringChar (c : Char) : List Char :=
  if c == quoteChar || c == backslashChar then [backslashChar, c]
  else if c == '\n' then [backslashChar, 'n']
  else if c == '\t' then [backslashChar, 't']
  else [c]

/-- Model of the `%q` verb applied to a string, for printable characters and
the escape sequences exercised here. -/
def goQuoteStr (s : String) : String :=
  String.mk (quoteChar :: (s.data.map escStringChar).flatten ++ [quoteChar])

def lowercaseDiag : String := "log message should start with a lowercase letter"

def englishDiag (script : String) (r : Char) : String :=
  "log message contains non-English characters (" ++ script ++ " script, rune " ++
    goQuoteRune r ++ ")"

def emojiDiag (r : Char) : String :=
  "log message contains emoji or special Unicode symbol (rune " ++ goQuoteRune r ++ ")"

def forbiddenDiag (r : Char) : String :=
  "log message contains forbidden special character " ++ goQuoteRune r

def repeatedDiag (seq : String) : String :=
  "log message contains repeated punctuation " ++ goQuoteStr seq

def sensMsgDiag (kw : String) : String :=
  "log message may contain sensitive data (keyword " ++ goQuoteStr kw ++
    " found in message text)"

def sensExprDiag (kw : String) : String :=
  "log message may contain sensitive data (keyword " ++ goQuoteStr kw ++
    " found in argument expression)"

/-! ## Rule functions: `CheckLowercase` and `CheckEnglish` -/

/-- The decode-and-test step of `rules.CheckLowercase`: the first rune of the
trimmed message, `utf8.RuneError` failing open, upper case violating. -/
def checkLowercaseData : List Char → String
  | [] => ""
  | r :: _ =>
    if r == runeError then ""
    else if goIsUpper r then lowercaseDiag
    else ""

/-- `rules.CheckLowercase`: trim white space, pass on empty, decode the first
rune (pass on `utf8.RuneError`), violate when it is upper case. -/
def CheckLowercase (msg : String) : String :=
  let m := trimSpaceStr msg
  if m == "" then ""
  else checkLowercaseData m.data

/-- `rules.isAllowedNonASCII`: the fixed allow-list of typographic punctuation. -/
def isAllowedNonASCII (r : Char) : Bool :=
  r.toNat ∈ ([0x2013, 0x2014, 0x2018, 0x2019, 0x201C, 0x201D, 0x2026] : List Nat)

/-- `rules.scriptName`: best-effort script classification by code-point range. -/
def scriptName (r : Char) : String :=
  if inRange r.toNat 0x400 0x4FF then "Cyrillic"
  else if inRange r.toNat 0x4E00 0x9FFF then "CJK"
  else if inRange r.toNat 0x600 0x6FF then "Arabic"
  else if inRange r.toNat 0x900 0x97F then "Devanagari"
  else if inRange r.toNat 0x1F300 0x1FAFF then "Emoji"
  else "non-Latin"

def checkEnglishLoop : List Char → String
  | [] => ""
  | r :: rest =>
    if r.toNat ≤ 0x7F then checkEnglishLoop rest
    else if isAllowedNonASCII r then checkEnglishLoop rest
    else englishDiag (scriptName r) r

/-- `rules.CheckEnglish`: first character outside ASCII and outside the fixed
allow-list violates, naming its script. -/
def CheckEnglish (msg : String) : String := checkEnglishLoop msg.data

/-! ## Rule function: `CheckSpecialChars` -/

/-- `rules.defaultForbiddenASCII`. -/
def defaultForbiddenASCII : String :=
  "!@#$%^&*+=|\\<>?`~;" ++ String.mk [apostropheChar, quoteChar]

/-- `rules.buildForbiddenSet`: the default forbidden characters minus any the
caller explicitly allows (the Go map is modelled as a list with membership). -/
def buildForbiddenSet (allowedExtra : String) : List Char :=
  defaultForbiddenASCII.data.filter (fun r => !(allowedExtra.data.contains r))

/-- `rules.isEmoji`. -/
def isEmoji (r : Char) : Bool :=
  goSo r || inRange r.toNat 0x1F300 0x1FAFF || inRange r.toNat 0x2600 0x27BF ||
    inRange r.toNat 0xFE00 0xFE0F

/-- The per-character loop of `rules.CheckSpecialChars`; `some d` models the
early `return` from inside the loop. -/
def checkSpecialScan (forbidden : List Char) : List Char → Option String
  | [] => none
  | r :: rest =>
    if isEmoji r then some (emojiDiag r)
    else if (decide (r.toNat ≤ 0x7F) && goIsPunct r || goIsSymbol r) &&
        forbidden.contains r then
      some (forbiddenDiag r)
    else checkSpecialScan forbidden rest

def repeatedSeqs : List String := ["...", "!!", "??", "***"]

def checkRepeatedLoop (msg : String) : List String → String
  | [] => ""
  | seq :: rest => if containsStr msg seq then repeatedDiag seq else checkRepeatedLoop msg rest

/-- `rules.checkRepeatedPunctuation`. -/
def checkRepeatedPunctuation (msg : String) : String := checkRepeatedLoop msg repeatedSeqs

/-- `rules.CheckSpecialChars`: per-character scan first, then the repeated
punctuation check. -/
def CheckSpecialChars (msg allowedExtra : String) : String :=
  let forbidden := buildForbiddenSet allowedExtra
  match checkSpecialScan forbidden msg.data with
  | some d => d
  | none => checkRepeatedPunctuation msg

/-! ## Rule function: `CheckSensitive` (package rules, token-based version) -/

/-- `rules.tokenizeWords`: `strings.FieldsFunc` keeping maximal runs of
`[a-z0-9_]`. -/
def tokenizeWords (s : String) : List String :=
  fieldsFunc
    (fun r => !(inRange r.toNat 0x61 0x7A || inRange r.toNat 0x30 0x39 || r == '_')) s

/-- The state machine of `rules.stripStringLiterals`; the three booleans are
`inDouble`, `inRaw` and `escape`. -/
def stripLoop : Bool → Bool → Bool → List Char → List Char
  | _, _, _, [] => []
  | inD, true, esc, r :: rest =>
    if r == backquoteChar then ' ' :: stripLoop inD false esc rest
    else stripLoop inD true esc rest
  | true, false, true, _ :: rest => stripLoop true false false rest
  | true, false, false, r :: rest =>
    if r == backslashChar then stripLoop true false true rest
    else if r == quoteChar then ' ' :: stripLoop false false false rest
    else stripLoop true false false rest
  | false, false, esc, r :: rest =>
    if r == quoteChar then ' ' :: stripLoop true false esc rest
    else if r == backquoteChar then ' ' :: stripLoop false true esc rest
    else r :: stripLoop false false esc rest

/-- `rules.stripStringLiterals`: blank out the contents of double-quoted and
raw backtick string literals, leaving one space per delimiter pair. -/
def stripStringLiterals (expr : String) : String :=
  String.mk (stripLoop false false false expr.data)

/-- The `safeNext` map of `rules.CheckSensitive`. -/
def safeNext : List String :=
  ["ok", "success", "successful", "succeeded", "failed", "failure", "error",
   "invalid", "missing", "present", "enabled", "disabled", "created", "generated",
   "refreshed", "expired", "validated", "completed", "revoked", "rotated",
   "updated", "authorized", "unauthorized"]

/-- The token loop of `rules.CheckSensitive` for one keyword: the first token
equal to the keyword decides — suppressed (`break`) when its successor is in
`safeNext`, a hit otherwise. -/
def msgHitAux (kw : String) : List String → Bool
  | [] => false
  | [t] => t == kw
  | t :: next :: rest =>
    if t == kw then !(safeNext.contains next) else msgHitAux kw (next :: rest)

/-- The keyword loop of `rules.CheckSensitive`: message-text check first, then
the normalized expression check, first hit wins. -/
def sensLoop (tokens : List String) (lowerExpr : String) : List String → String
  | [] => ""
  | kw0 :: rest =>
    let kw := strToLower kw0
    if msgHitAux kw tokens then sensMsgDiag kw
    else
      let exprNoStrings := stripStringLiterals lowerExpr
      let normalized := goReplaceAll (goReplaceAll exprNoStrings "_" "") " " ""
      let kwNorm := goReplaceAll kw "_" ""
      if containsStr normalized kwNorm then sensExprDiag kw
      else sensLoop tokens lowerExpr rest

/-- `rules.CheckSensitive` (the token-based version of the rules package). -/
def CheckSensitive (msg fullExpr : String) (keywords : List String) : String :=
  let lower := strToLower msg
  let lowerExpr := strToLower fullExpr
  let tokens := tokenizeWords lower
  sensLoop tokens lowerExpr keywords

/-- `config.defaultSensitiveKeywords`. -/
def defaultSensitiveKeywords : List String :=
  ["password", "passwd", "secret", "token", "api_key", "apikey", "auth",
   "credential", "private_key", "access_key", "session", "jwt", "bearer", "ssn",
   "credit_card"]

/-! ## Auto-fix for special characters: `cleanSpecialMessage` -/

/-- The "safe" punctuation kept by `analyzer.cleanSpecialMessage`. -/
def safePunct : List Char := ['-', '_', '/', ':', '.', ',', ' ']

/-- The per-character loop of `analyzer.cleanSpecialMessage`: drop non-ASCII,
keep allow-listed characters, drop the default forbidden set, keep safe
punctuation, drop remaining punctuation/symbols, keep the rest. -/
def cleanLoop (allowed : List Char) : List Char → List Char
  | [] => []
  | r :: rest =>
    if 0x7F < r.toNat then cleanLoop allowed rest
    else if allowed.contains r then r :: cleanLoop allowed rest
    else if defaultForbiddenASCII.data.contains r then cleanLoop allowed rest
    else if safePunct.contains r then r :: cleanLoop allowed rest
    else if goIsPunct r || goIsSymbol r then cleanLoop allowed rest
    else r :: cleanLoop allowed rest

/-- `analyzer.cleanSpecialMessage`. -/
def cleanSpecialMessage (msg allowedExtra : String) : String :=
  if msg == "" then msg
  else String.mk (cleanLoop allowedExtra.data msg.data)

/-! ## Analyzer model: expressions and the message resolver -/

inductive LitKind where
  | stringLit
  | otherLit
deriving DecidableEq

inductive BinOp where
  | add
  | otherOp
deriving DecidableEq

/-- The `go/ast` expression shapes the analyzer distinguishes. An identifier
carries the result of the `pass.TypesInfo.Uses` lookup as resolved by
`collectStringParts`: `some v` when it names a typed constant with textual
value `v` (`c.Val().String()`), `none` otherwise. A `basicLit`'s `value` is
the raw token text including its quote or backtick delimiters. -/
inductive GoExpr where
  | basicLit (kind : LitKind) (value : String)
  | binary (op : BinOp) (x y : GoExpr)
  | ident (name : String) (constVal : Option String)
  | paren (x : GoExpr)
  | selector (x : GoExpr) (selName : String)
  | call (fn : GoExpr) (args : List GoExpr)
  | otherExpr

/-- The `*ast.BasicLit` unquoting of `analyzer.collectStringParts`: trim
backtick delimiters, trim one double quote from each end, then the four
sequential `strings.ReplaceAll` escape rewrites in source order. -/
def unquoteLit (v : String) : String :=
  let s := String.mk (trimCutset backquoteChar v.data)
  let s := String.mk (trimOneLeading quoteChar s.data)
  let s := String.mk (trimOneTrailing quoteChar s.data)
  let s := goReplaceAll s (String.mk [backslashChar, quoteChar]) (String.mk [quoteChar])
  let s := goReplaceAll s (String.mk [backslashChar, backslashChar]) (String.mk [backslashChar])
  let s := goReplaceAll s (String.mk [backslashChar, 'n']) "\n"
  let s := goReplaceAll s (String.mk [backslashChar, 't']) "\t"
  s

/-- `strings.Trim(val, quote-cutset)` applied to a constant's textual value. -/
def trimQuotesAll (v : String) : String := String.mk (trimCutset quoteChar v.data)

/-- `analyzer.collectStringParts`: string literals are unquoted, `+` chains are
followed left to right, constant identifiers contribute their textual value
with quotes trimmed, parentheses are transparent, everything else contributes
nothing. -/
def collectStringParts : GoExpr → List String
  | .basicLit kind v => if kind = .stringLit then [unquoteLit v] else []
  | .binary op x y =>
    if op = .add then collectStringParts x ++ collectStringParts y else []
  | .ident _ (some cval) => [trimQuotesAll cval]
  | .ident _ none => []
  | .paren x => collectStringParts x
  | _ => []

/-- The literal value assembled by `analyzer.extractStringValue`
(`strings.Join(parts, "")`). -/
def literalValue (e : GoExpr) : String := String.join (collectStringParts e)

mutual

/-- The `ast.Inspect` fallback of `analyzer.exprToString`: depth-first preorder
concatenation of every string-literal token's verbatim text and every
identifier's name. -/
def inspectConcat : GoExpr → String
  | .basicLit _ v => v
  | .binary _ x y => inspectConcat x ++ inspectConcat y
  | .ident name _ => name
  | .paren x => inspectConcat x
  | .selector x selName => inspectConcat x ++ selName
  | .call fn args => inspectConcat fn ++ inspectConcatList args
  | .otherExpr => ""

def inspectConcatList : List GoExpr → String
  | [] => ""
  | e :: rest => inspectConcat e ++ inspectConcatList rest

end

/-- A file of the pass, as `analyzer.sourceFragment` sees it: its position's
file name and whether `fset.File` yields a `token.File` for it. -/
structure GoFile where
  filename : String
  hasTokenFile : Bool

/-- `analyzer.sourceFragment`: scan `pass.Files` for the file whose cleaned
name matches; both the missing-token-file branch and the fall-through branch
of the loop body return the empty string, as does the no-match exit.
`filepath.Clean` is modelled by the abstract `clean` parameter. -/
def sourceFragment (clean : String → String) (filename : String) : List GoFile → String
  | [] => ""
  | f :: rest =>
    if clean f.filename ≠ clean filename then sourceFragment clean filename rest
    else if !f.hasTokenFile then ""
    else ""

/-- `analyzer.exprToString`. `posOk` models
`start.IsValid() && end.IsValid() && start.Filename == end.Filename`, and
`filename` the shared file name of the expression's end points. -/
def exprToString (clean : String → String) (files : List GoFile) (posOk : Bool)
    (filename : String) : Option GoExpr → String
  | none => ""
  | some e =>
    let src := sourceFragment clean filename files
    if posOk && src ≠ "" then src
    else inspectConcat e

/-- `analyzer.extractStringValue`: the resolved literal and the raw
full-expression text. -/
def extractStringValue (clean : String → String) (files : List GoFile) (posOk : Bool)
    (filename : String) (e : GoExpr) : String × String :=
  (literalValue e, exprToString clean files posOk filename (some e))

/-! ## Analyzer model: the call-site classifier -/

/-- `analyzer.isLogMethod`. -/
def isLogMethod (name : String) : Bool :=
  name ∈ (["Info", "Warn", "Error", "Debug",
           "Fatal", "Panic", "DPanic",
           "InfoCtx", "WarnCtx", "ErrorCtx", "DebugCtx",
           "InfoContext", "WarnContext", "ErrorContext", "DebugContext",
           "Print", "Printf", "Println",
           "Fatalf", "Fatalln",
           "Panicf", "Panicln"] : List String)

/-- `analyzer.supportedPkgPrefixes`. -/
def supportedPkgPrefixes : List String :=
  ["log/slog", "go.uber.org/zap", "go.uber.org/zap/zaptest", "log"]

def isSupportedPackageLoop (pkgPath : String) : List String → Bool
  | [] => pkgPath == "log"
  | p :: rest =>
    if pkgPath == p || hasPrefixStr pkgPath (p ++ "/") then true
    else isSupportedPackageLoop pkgPath rest

/-- `analyzer.isSupportedPackage`: the prefix loop over
`supportedPkgPrefixes`, then the exact-match fallback for `"log"`. -/
def isSupportedPackage (pkgPath : String) : Bool :=
  isSupportedPackageLoop pkgPath supportedPkgPrefixes

/-- A `*ast.SelectorExpr` callee as the classifier sees it: the member name
and the `pass.TypesInfo.Uses[sel.Sel]` lookup — `none` when the selector is
not in the uses map, `some pkg` the resolved object's declaring package
(`none` inside when `obj.Pkg()` is nil). -/
structure SelectorInfo where
  selName : String
  use : Option (Option String)

inductive CallFun where
  | selector (sel : SelectorInfo)
  | otherFun

/-- A `*ast.CallExpr` as the classifier sees it. -/
structure CallExpr where
  fn : CallFun
  args : List GoExpr
  pos : Nat

/-- `analyzer.pkgPathOf` applied to a resolved object's package. -/
def pkgPathOf (pkg : Option String) : String := pkg.getD ""

/-- `analyzer.isSupportedLogMethod`. -/
def isSupportedLogMethod (sel : SelectorInfo) : Bool :=
  if !isLogMethod sel.selName then false
  else
    match sel.use with
    | none => false
    | some pkg => isSupportedPackage (pkgPathOf pkg)

/-- `analyzer.messageArgIndex`: always 0 for every supported logger family. -/
def messageArgIndex (_sel : SelectorInfo) (_args : List GoExpr) : Int := 0

/-- `analyzer.logCall`. -/
structure LogCall where
  pos : Nat
  msgArg : GoExpr
  msgLiteral : String
  fullExpr : String

/-- `analyzer.extractLogCall`: selector callee, supported method, message
index bounds check, then argument access and string resolution; `none` models
the `(logCall{}, false)` returns. -/
def extractLogCall (clean : String → String) (files : List GoFile) (posOk : Bool)
    (filename : String) (call : CallExpr) : Option LogCall :=
  match call.fn with
  | .otherFun => none
  | .selector sel =>
    if !isSupportedLogMethod sel then none
    else
      let msgIdx := messageArgIndex sel call.args
      if h : msgIdx < 0 ∨ (call.args.length : Int) ≤ msgIdx then none
      else
        have hlt : msgIdx.toNat < call.args.length := by omega
        let msgArg := call.args.get ⟨msgIdx.toNat, hlt⟩
        let lv := extractStringValue clean files posOk filename msgArg
        some { pos := call.pos, msgArg := msgArg, msgLiteral := lv.1, fullExpr := lv.2 }

/-! ## Auto-fix for the lowercase rule -/

/-- `analyzer.lowerRune`: ASCII-only lower-casing. -/
def lowerRune (r : Char) : Char :=
  if inRange r.toNat 0x41 0x5A then Char.ofNat (r.toNat + 0x20) else r

/-- A suggested fix, reduced to its message and the replacement text of its
single text edit (the edit's position range spans the original literal and is
not needed by any claim). -/
structure SuggestedFix where
  message : String
  newText : String
deriving DecidableEq

/-- `analyzer.suggestLowercaseFix`: only for a plain string-literal argument;
lower-case the first rune of the resolved message, skip if unchanged, re-emit
between the literal's original delimiter character (`lit.Value[0]`). -/
def suggestLowercaseFix (msgArg : GoExpr) (msg : String) : List SuggestedFix :=
  if msg == "" then []
  else
    match msgArg with
    | .basicLit .stringLit v =>
      match msg.data with
      | [] => []
      | r0 :: rest =>
        let fixed := String.mk (lowerRune r0 :: rest)
        if fixed == msg then []
        else
          match v.data with
          | [] => []
          | q :: _ =>
            [{ message := "lowercase first letter of log message",
               newText := String.mk (q :: fixed.data ++ [q]) }]
    | _ => []

/-- Whether the message argument is syntactically a plain string literal (the
`lc.msgArg.(*ast.BasicLit)` / `lit.Kind == token.STRING` test). -/
def isStringLit : GoExpr → Bool
  | .basicLit .stringLit _ => true
  | _ => false

/-- The normalized-expression containment test of `rules.CheckSensitive`, as
performed inside the keyword loop. -/
def exprHit (lowerExpr kw : String) : Bool :=
  containsStr
    (goReplaceAll (goReplaceAll (stripStringLiterals lowerExpr) "_" "") " " "")
    (goReplaceAll kw "_" "")

/-- First characters the lowercase-start claim quantifies over: ASCII
lower-case letters, digits, and punctuation. -/
def lowerDigitPunct (c : Char) : Bool :=
  inRange c.toNat 0x61 0x7A || inRange c.toNat 0x30 0x39 || goIsPunct c

/-- One character of the per-character scan of `CheckSpecialChars` flagging:
either the emoji test or the forbidden-set test fires. -/
def charHit (forbidden : List Char) (r : Char) : Bool :=
  isEmoji r ||
    ((decide (r.toNat ≤ 0x7F) && goIsPunct r || goIsSymbol r) && forbidden.contains r)

/-! ## Helper lemmas -/

theorem mk_cons_ne_empty (c : Char) (l : List Char) : String.mk (c :: l) ≠ "" := by
  intro h
  have := congrArg String.data h
  simp at this

theorem beq_empty_eq_false_of_data {s : String} {c : Char} {l : List Char}
    (h : s.data = c :: l) : (s == "") = false := by
  cases s with
  | mk d =>
    subst h
    exact beq_eq_false_iff_ne.mpr (mk_cons_ne_empty c l)

theorem sensLoop_nil (tokens : List String) (lowerExpr : String) :
    sensLoop tokens lowerExpr [] = "" := rfl

theorem sensLoop_cons (tokens : List String) (lowerExpr : String) (kw0 : String)
    (rest : List String) :
    sensLoop tokens lowerExpr (kw0 :: rest) =
      if msgHitAux (strToLower kw0) tokens then sensMsgDiag (strToLower kw0)
      else if exprHit lowerExpr (strToLower kw0) then sensExprDiag (strToLower kw0)
      else sensLoop tokens lowerExpr rest := rfl

theorem sensLoop_sound (tokens : List String) (lowerExpr : String) (kws : List String)
    (h : sensLoop tokens lowerExpr kws ≠ "") :
    ∃ kw ∈ kws.map strToLower,
      (msgHitAux kw tokens = true ∧ sensLoop tokens lowerExpr kws = sensMsgDiag kw) ∨
      (exprHit lowerExpr kw = true ∧ sensLoop tokens lowerExpr kws = sensExprDiag kw) := by
  induction kws with
  | nil => exact absurd rfl h
  | cons kw0 rest ih =>
    rw [sensLoop_cons] at h ⊢
    by_cases hm : msgHitAux (strToLower kw0) tokens
    · refine ⟨strToLower kw0, by simp, Or.inl ⟨hm, ?_⟩⟩
      simp [hm]
    · by_cases he : exprHit lowerExpr (strToLower kw0)
      · refine ⟨strToLower kw0, by simp, Or.inr ⟨he, ?_⟩⟩
        simp [hm, he]
      · rw [if_neg hm, if_neg he] at h
        obtain ⟨kw, hmem, hca⟩ := ih h
        refine ⟨kw, by simp at hmem ⊢; exact Or.inr hmem, ?_⟩
        rw [if_neg hm, if_neg he]
        exact hca

theorem msgHitAux_whole_token (kw : String) (tokens : List String)
    (h : msgHitAux kw tokens = true) :
    ∃ pre suf, tokens = pre ++ kw :: suf ∧
      (∀ next, suf.head? = some next → safeNext.contains next = false) := by
  induction tokens with
  | nil => exact absurd h (by simp [msgHitAux])
  | cons t rest ih =>
    cases rest with
    | nil =>
      simp only [msgHitAux, beq_iff_eq] at h
      exact ⟨[], [], by rw [h]; rfl, by intro next hn; simp at hn⟩
    | cons next rest2 =>
      simp only [msgHitAux] at h
      by_cases ht : t == kw
      · rw [if_pos ht] at h
        rw [beq_iff_eq] at ht
        refine ⟨[], next :: rest2, by rw [ht]; rfl, ?_⟩
        intro n hn
        simp only [List.head?_cons, Option.some.injEq] at hn
        subst hn
        simpa using h
      · rw [if_neg ht] at h
        obtain ⟨pre, suf, heq, hsafe⟩ := ih h
        exact ⟨t :: pre, suf, by rw [heq]; rfl, hsafe⟩

theorem sourceFragment_empty (clean : String → String) (filename : String)
    (files : List GoFile) : sourceFragment clean filename files = "" := by
  induction files with
  | nil => rfl
  | cons f rest ih =>
    simp only [sourceFragment]
    split
    · exact ih
    · split <;> rfl

/-! ## Claim theorems -/

/-- C1. The sensitive-keyword rule compares each lower-cased keyword against
whole tokens of the lower-cased message (a message-text hit exhibits the
keyword as one complete token, never a substring of one), a token hit whose
immediately following token is in the safe-completion set is suppressed, the
expression check strips string-literal contents and removes underscores and
spaces before testing substring containment, and on the default keyword list
"token validated" passes, "token: abc123" violates via the message text, and
the expression `"authenticated " + jwtToken` violates via the expression. -/
theorem claim_C1 :
    (∀ msg expr kws, CheckSensitive msg expr kws ≠ "" →
      ∃ kw ∈ kws.map strToLower,
        (msgHitAux kw (tokenizeWords (strToLower msg)) = true ∧
          CheckSensitive msg expr kws = sensMsgDiag kw) ∨
        (exprHit (strToLower expr) kw = true ∧
          CheckSensitive msg expr kws = sensExprDiag kw)) ∧
    (∀ kw tokens, msgHitAux kw tokens = true →
      ∃ pre suf, tokens = pre ++ kw :: suf ∧
        (∀ next, suf.head? = some next → safeNext.contains next = false)) ∧
    (CheckSensitive "token validated" "\"token validated\"" defaultSensitiveKeywords
      = "") ∧
    (CheckSensitive "token: abc123" "\"token: abc123\"" defaultSensitiveKeywords
      = sensMsgDiag "token") ∧
    (CheckSensitive "authenticated" "\"authenticated \" + jwtToken"
      defaultSensitiveKeywords = sensExprDiag "token") := by
  refine ⟨?_, msgHitAux_whole_token, by decide, by decide, by decide⟩
  intro msg expr kws h
  exact sensLoop_sound (tokenizeWords (strToLower msg)) (strToLower expr) kws h

/-- C2 counterexample. `CheckSensitive` does not return the empty string for
every input with an empty message: the expression text alone can trigger a
violation. -/
theorem claim_C2_counterexample :
    CheckSensitive "" "jwtToken" ["token"] ≠ "" := by decide

/-- C2 as amended. On the empty message, `CheckLowercase`, `CheckEnglish` and
`CheckSpecialChars` return the empty string for all values of their other
inputs; `CheckSensitive` never reports a message-text violation for an empty
message, but may still report an argument-expression violation. -/
theorem claim_C2 :
    (CheckLowercase "" = "") ∧
    (CheckEnglish "" = "") ∧
    (∀ allowed, CheckSpecialChars "" allowed = "") ∧
    (∀ expr kws, CheckSensitive "" expr kws = "" ∨
      ∃ kw, CheckSensitive "" expr kws = sensExprDiag kw) := by
  refine ⟨rfl, rfl, fun allowed => rfl, ?_⟩
  intro expr kws
  show sensLoop [] (strToLower expr) kws = "" ∨
    ∃ kw, sensLoop [] (strToLower expr) kws = sensExprDiag kw
  induction kws with
  | nil => exact Or.inl rfl
  | cons kw0 rest ih =>
    rw [sensLoop_cons]
    have hm : msgHitAux (strToLower kw0) [] = false := rfl
    rw [hm]
    simp only [Bool.false_eq_true, if_false]
    by_cases he : exprHit (strToLower expr) (strToLower kw0)
    · exact Or.inr ⟨strToLower kw0, by rw [if_pos he]⟩
    · rw [if_neg he]
      exact ih

/-- C3. Evaluation of `isSupportedPackage` at the inputs that decide the
claim: because `"log"` sits in `supportedPkgPrefixes`, the loop accepts any
path of the form `log/<anything>` by prefix, contradicting the in-code
comments that the bare standard `log` package matches by exact identity only;
`logrus` is still rejected and `log` itself accepted. -/
theorem claim_C3 :
    isSupportedPackage "log/syslog" = true ∧
    isSupportedPackage "log/anything" = true ∧
    isSupportedPackage "log" = true ∧
    isSupportedPackage "logrus" = false := by decide

/-- C10. `sourceFragment` returns the empty string on every input, so
`exprToString` always takes the fallback branch: the depth-first preorder
concatenation of string-literal token texts and identifier names. -/
theorem claim_C10 :
    (∀ clean filename files, sourceFragment clean filename files = "") ∧
    (∀ clean files posOk filename e,
      exprToString clean files posOk filename (some e) = inspectConcat e) ∧
    (∀ clean files posOk filename,
      exprToString clean files posOk filename none = "") := by
  refine ⟨sourceFragment_empty, ?_, fun _ _ _ _ => rfl⟩
  intro clean files posOk filename e
  simp [exprToString, sourceFragment_empty]

/-- C9. Classification safety: whenever `extractLogCall` succeeds, the callee
is a recognized selector and the computed message-argument index is a valid
index into the call's argument list, the extracted message argument being the
element at that index; a recognized call with an empty argument list is
silently skipped (no `LogCall`, no error). -/
theorem claim_C9 :
    (∀ clean files posOk filename call lc,
      extractLogCall clean files posOk filename call = some lc →
      ∃ sel, call.fn = .selector sel ∧ isSupportedLogMethod sel = true ∧
        ∃ h : (messageArgIndex sel call.args).toNat < call.args.length,
          lc.msgArg = call.args.get ⟨(messageArgIndex sel call.args).toNat, h⟩) ∧
    (∀ clean files posOk filename fn pos,
      extractLogCall clean files posOk filename ⟨fn, [], pos⟩ = none) := by
  constructor
  · intro clean files posOk filename call lc h
    obtain ⟨fn, args, pos⟩ := call
    cases fn with
    | otherFun => simp [extractLogCall] at h
    | selector sel =>
      refine ⟨sel, rfl, ?_⟩
      by_cases hs : isSupportedLogMethod sel
      · refine ⟨hs, ?_⟩
        simp only [extractLogCall, hs, Bool.not_true, Bool.false_eq_true, if_false] at h
        split at h
        · exact absurd h (by simp)
        · next hcond =>
          simp only [Option.some.injEq] at h
          subst h
          simp only [messageArgIndex] at hcond ⊢
          exact ⟨by omega, trivial⟩
      · simp [extractLogCall, hs] at h
  · intro clean files posOk filename fn pos
    cases fn with
    | otherFun => rfl
    | selector sel =>
      by_cases hs : isSupportedLogMethod sel <;>
        simp [extractLogCall, hs, messageArgIndex]

theorem toNat_ofNatChar (n : Nat) (h : n.isValidChar) : (Char.ofNat n).toNat = n := by
  rw [Char.ofNat, dif_pos h]
  simp only [Char.ofNatAux, Char.toNat, UInt32.toNat]
  exact BitVec.toNat_ofNatLt _ _

theorem checkLowercase_of_head (msg : String) (c : Char) (rest : List Char)
    (h : (trimSpaceStr msg).data = c :: rest) :
    CheckLowercase msg = checkLowercaseData (c :: rest) := by
  have hb := beq_empty_eq_false_of_data h
  simp only [CheckLowercase, hb, Bool.false_eq_true, if_false, h]

theorem trimSpace_cons (c : Char) (rest : List Char) (h : goIsSpace c = false) :
    (trimSpaceStr (String.mk (c :: rest))).data = c :: dropWhileEnd goIsSpace rest := by
  show dropWhileEnd goIsSpace (List.dropWhile goIsSpace (c :: rest)) =
    c :: dropWhileEnd goIsSpace rest
  rw [List.dropWhile_cons]
  simp only [h, Bool.false_eq_true, if_false, dropWhileEnd, Bool.and_false]

theorem ldp_props (c : Char) (h : lowerDigitPunct c = true) :
    goIsSpace c = false ∧ goIsUpper c = false ∧ (c == runeError) = false := by
  have harith : ∀ d : Char,
      (0x61 ≤ d.toNat ∧ d.toNat ≤ 0x7A) ∨ (0x30 ≤ d.toNat ∧ d.toNat ≤ 0x39) →
      goIsSpace d = false ∧ goIsUpper d = false ∧ (d == runeError) = false := by
    intro d hd
    refine ⟨?_, ?_, ?_⟩
    · refine Bool.eq_false_iff.mpr ?_
      intro hs
      simp only [goIsSpace, inRange, Bool.or_eq_true, decide_eq_true_eq,
        beq_iff_eq] at hs
      omega
    · refine Bool.eq_false_iff.mpr ?_
      intro hs
      simp only [goIsUpper, inRange, Bool.or_eq_true, decide_eq_true_eq,
        beq_iff_eq] at hs
      omega
    · refine Bool.eq_false_iff.mpr ?_
      intro hs
      rw [beq_iff_eq] at hs
      subst hs
      exact absurd hd (by decide)
  simp only [lowerDigitPunct, goIsPunct, Bool.or_eq_true, inRange,
    decide_eq_true_eq, beq_iff_eq] at h
  rcases h with (hr | hr) | hp
  · exact harith c (Or.inl hr)
  · exact harith c (Or.inr hr)
  · rcases hp with ((hmem | hq) | ha) | hb
    · fin_cases hmem <;> decide
    · subst hq; decide
    · subst ha; decide
    · subst hb; decide

/-- C5. The lowercase-start rule trims white space first and passes on an
empty result; a trimmed message starting with `utf8.RuneError` passes (fail
open); a first character that is upper case under the general case mapping
(Cyrillic included) violates with the fixed message; a first character that is
not upper case — in particular any ASCII lower-case letter, digit, or
punctuation character — never violates. -/
theorem claim_C5 :
    (∀ msg, trimSpaceStr msg = "" → CheckLowercase msg = "") ∧
    (∀ msg c rest, (trimSpaceStr msg).data = c :: rest → goIsUpper c = true →
      CheckLowercase msg = lowercaseDiag) ∧
    (∀ msg c rest, (trimSpaceStr msg).data = c :: rest → goIsUpper c = false →
      CheckLowercase msg = "") ∧
    (∀ msg rest, (trimSpaceStr msg).data = runeError :: rest →
      CheckLowercase msg = "") ∧
    (∀ c rest, lowerDigitPunct c = true →
      CheckLowercase (String.mk (c :: rest)) = "") ∧
    (CheckLowercase "Запуск" = lowercaseDiag) ∧
    (CheckLowercase "hello" = "") := by
  refine ⟨?_, ?_, ?_, ?_, ?_, by decide, by decide⟩
  · intro msg h
    simp [CheckLowercase, h]
  · intro msg c rest h hup
    rw [checkLowercase_of_head msg c rest h]
    have hne : (c == runeError) = false := by
      refine beq_eq_false_iff_ne.mpr ?_
      intro he
      subst he
      exact absurd hup (by decide)
    simp [checkLowercaseData, hne, hup]
  · intro msg c rest h hup
    rw [checkLowercase_of_head msg c rest h]
    by_cases hrc : c == runeError <;> simp [checkLowercaseData, hrc, hup]
  · intro msg rest h
    rw [checkLowercase_of_head msg runeError rest h]
    simp [checkLowercaseData]
  · intro c rest h
    obtain ⟨hsp, hup, hne⟩ := ldp_props c h
    rw [checkLowercase_of_head _ c _ (trimSpace_cons c rest hsp)]
    simp [checkLowercaseData, hne, hup]

theorem lowerRune_of_ascii_upper (r : Char) (h : inRange r.toNat 0x41 0x5A = true) :
    lowerRune r = Char.ofNat (r.toNat + 0x20) ∧ lowerRune r ≠ r := by
  have hb : 0x41 ≤ r.toNat ∧ r.toNat ≤ 0x5A := by
    simpa [inRange, decide_eq_true_eq] using h
  constructor
  · simp [lowerRune, h]
  · simp only [lowerRune, h, if_true]
    intro he
    have := congrArg Char.toNat he
    rw [toNat_ofNatChar (r.toNat + 0x20) (Or.inl (by omega))] at this
    omega

theorem lowerRune_id_of_not_ascii_upper (r : Char)
    (h : inRange r.toNat 0x41 0x5A = false) : lowerRune r = r := by
  simp [lowerRune, h]

theorem suggestLowercaseFix_lit (r0 q : Char) (rt vt : List Char) :
    suggestLowercaseFix (.basicLit .stringLit (String.mk (q :: vt)))
        (String.mk (r0 :: rt)) =
      if String.mk (lowerRune r0 :: rt) = String.mk (r0 :: rt) then []
      else [⟨"lowercase first letter of log message",
             String.mk (q :: lowerRune r0 :: rt ++ [q])⟩] := by
  have hb : (String.mk (r0 :: rt) == "") = false :=
    beq_empty_eq_false_of_data rfl
  simp only [suggestLowercaseFix, hb, Bool.false_eq_true, if_false]
  by_cases hf : String.mk (lowerRune r0 :: rt) = String.mk (r0 :: rt)
  · simp [hf]
  · have hf2 : (String.mk (lowerRune r0 :: rt) == String.mk (r0 :: rt)) = false :=
      beq_eq_false_iff_ne.mpr hf
    simp [hf2, hf]

/-- C6 counterexample. A single-literal message starting with a non-ASCII
(Cyrillic) uppercase letter violates the lowercase rule, yet
`suggestLowercaseFix` offers no fix, because `lowerRune` lower-cases ASCII
letters only and the unchanged result is skipped. -/
theorem claim_C6_counterexample :
    CheckLowercase "Запуск" = lowercaseDiag ∧
    suggestLowercaseFix (.basicLit .stringLit "\"Запуск\"") "Запуск" = [] := by
  decide

/-- C6 as amended. The lowercase fix is produced only for a plain
string-literal message argument; it replaces the first character by
`lowerRune` of it leaving the rest identical, re-emits between the literal's
original delimiter character, and is omitted when the computed fix equals the
original. `lowerRune` lower-cases ASCII A–Z only, so a single-literal message
whose first character is an ASCII uppercase letter gets a fix starting with
that character's lower-case form, while a first character outside A–Z
(non-ASCII uppercase letters included) is left unchanged and no fix is
offered. -/
theorem claim_C6 :
    (∀ e msg, isStringLit e = false → suggestLowercaseFix e msg = []) ∧
    (∀ q vt r0 rt,
      suggestLowercaseFix (.basicLit .stringLit (String.mk (q :: vt)))
          (String.mk (r0 :: rt)) =
        if String.mk (lowerRune r0 :: rt) = String.mk (r0 :: rt) then []
        else [⟨"lowercase first letter of log message",
               String.mk (q :: lowerRune r0 :: rt ++ [q])⟩]) ∧
    (∀ q vt r0 rt, inRange r0.toNat 0x41 0x5A = true →
      suggestLowercaseFix (.basicLit .stringLit (String.mk (q :: vt)))
          (String.mk (r0 :: rt)) =
        [⟨"lowercase first letter of log message",
          String.mk (q :: Char.ofNat (r0.toNat + 0x20) :: rt ++ [q])⟩]) ∧
    (∀ v r0 rt, inRange r0.toNat 0x41 0x5A = false →
      suggestLowercaseFix (.basicLit .stringLit v) (String.mk (r0 :: rt)) = []) ∧
    (∀ r, inRange r.toNat 0x41 0x5A = false → lowerRune r = r) := by
  refine ⟨?_, ?_, ?_, ?_, lowerRune_id_of_not_ascii_upper⟩
  · intro e msg hs
    cases e with
    | basicLit kind v =>
      cases kind with
      | stringLit => exact absurd hs (by simp [isStringLit])
      | otherLit => simp [suggestLowercaseFix]
    | binary op x y => simp [suggestLowercaseFix]
    | ident n cv => simp [suggestLowercaseFix]
    | paren x => simp [suggestLowercaseFix]
    | selector x s => simp [suggestLowercaseFix]
    | call f a => simp [suggestLowercaseFix]
    | otherExpr => simp [suggestLowercaseFix]
  · intro q vt r0 rt
    exact suggestLowercaseFix_lit r0 q rt vt
  · intro q vt r0 rt hup
    obtain ⟨heq, hne⟩ := lowerRune_of_ascii_upper r0 hup
    rw [suggestLowercaseFix_lit r0 q rt vt, if_neg, heq]
    intro hc
    have := congrArg String.data hc
    simp only [List.cons.injEq] at this
    exact hne this.1
  · intro v r0 rt hlow
    have hid := lowerRune_id_of_not_ascii_upper r0 hlow
    have hb : (String.mk (r0 :: rt) == "") = false :=
      beq_empty_eq_false_of_data rfl
    simp [suggestLowercaseFix, hb, hid]

/-- C4 counterexample. The escape rewrites of `collectStringParts` are
sequential textual replacements, so the five-character source literal
`"\\n"` (quote, backslash, backslash, n, quote) resolves to an actual
newline, not to a backslash followed by the letter n as the claim states. -/
theorem claim_C4_counterexample :
    literalValue (.basicLit .stringLit
        (String.mk [quoteChar, backslashChar, backslashChar, 'n', quoteChar]))
      = "\n" ∧
    ("\n" : String) ≠ String.mk [backslashChar, 'n'] := by decide

/-- C4 as amended. The literal value of a string literal is its token text
with backtick delimiters trimmed, one double quote removed from each end, and
the escape sequences for quote, backslash, newline and tab resolved by
sequential textual replacement in that order — so the source literal `"\\n"`
resolves to a newline (the collapsed backslash re-combines with the following
`n`); binary `+` concatenates the operands left to right, parentheses are
transparent, a constant identifier contributes its textual value with quotes
trimmed, and every other expression shape contributes nothing. -/
theorem claim_C4 :
    (∀ v, collectStringParts (.basicLit .stringLit v) = [unquoteLit v]) ∧
    (∀ v, collectStringParts (.basicLit .otherLit v) = []) ∧
    (∀ x y, collectStringParts (.binary .add x y) =
      collectStringParts x ++ collectStringParts y) ∧
    (∀ x y, collectStringParts (.binary .otherOp x y) = []) ∧
    (∀ x, collectStringParts (.paren x) = collectStringParts x) ∧
    (∀ n cv, collectStringParts (.ident n (some cv)) = [trimQuotesAll cv]) ∧
    (∀ n, collectStringParts (.ident n none) = []) ∧
    (∀ x s, collectStringParts (.selector x s) = []) ∧
    (∀ f a, collectStringParts (.call f a) = []) ∧
    (collectStringParts .otherExpr = []) ∧
    (∀ e, literalValue e = String.join (collectStringParts e)) ∧
    (unquoteLit (String.mk [quoteChar, backslashChar, backslashChar, 'n', quoteChar])
      = "\n") ∧
    (unquoteLit (String.mk [quoteChar, 'a', backslashChar, 't', 'b', quoteChar])
      = "a\tb") ∧
    (literalValue (.binary .add
        (.basicLit .stringLit (String.mk [quoteChar, 'a', quoteChar]))
        (.ident "jwtToken" none)) = "a") := by
  refine ⟨fun v => rfl, fun v => rfl, fun x y => rfl, fun x y => rfl, fun x => rfl,
    fun n cv => rfl, fun n => rfl, fun x s => rfl, fun f a => rfl, rfl,
    fun e => rfl, by decide, by decide, by decide⟩

theorem scan_some_of_hit (forbidden : List Char) (l : List Char)
    (h : ∃ r ∈ l, charHit forbidden r = true) :
    ∃ r, checkSpecialScan forbidden l = some (emojiDiag r) ∨
         checkSpecialScan forbidden l = some (forbiddenDiag r) := by
  induction l with
  | nil =>
    obtain ⟨r, hr, _⟩ := h
    simp at hr
  | cons c rest ih =>
    by_cases he : isEmoji c = true
    · refine ⟨c, Or.inl ?_⟩
      simp only [checkSpecialScan]
      rw [if_pos he]
    · by_cases hf : ((decide (c.toNat ≤ 0x7F) && goIsPunct c || goIsSymbol c) &&
          forbidden.contains c) = true
      · refine ⟨c, Or.inr ?_⟩
        simp only [checkSpecialScan]
        rw [if_neg he, if_pos hf]
      · have hrest : ∃ r ∈ rest, charHit forbidden r = true := by
          obtain ⟨r, hr, hhit⟩ := h
          rcases List.mem_cons.mp hr with rfl | hr2
          · simp only [charHit, Bool.or_eq_true] at hhit
            rcases hhit with h1 | h2
            · exact absurd h1 he
            · exact absurd h2 hf
          · exact ⟨r, hr2, hhit⟩
        obtain ⟨r, hro⟩ := ih hrest
        refine ⟨r, ?_⟩
        simp only [checkSpecialScan]
        rw [if_neg he, if_neg hf]
        exact hro

theorem emojiDiag_ne_repeatedDiag (r : Char) (seq : String) :
    emojiDiag r ≠ repeatedDiag seq := by
  intro h
  have h2 := congrArg (fun s => s.data.take 22) h
  simp only [emojiDiag, repeatedDiag] at h2
  rw [String.data_append, String.data_append, String.data_append,
    List.append_assoc] at h2
  rw [List.take_append_of_le_length (by decide),
    List.take_append_of_le_length (by decide)] at h2
  exact absurd h2 (by decide)

theorem forbiddenDiag_ne_repeatedDiag (r : Char) (seq : String) :
    forbiddenDiag r ≠ repeatedDiag seq := by
  intro h
  have h2 := congrArg (fun s => s.data.take 22) h
  simp only [forbiddenDiag, repeatedDiag] at h2
  rw [String.data_append, String.data_append] at h2
  rw [List.take_append_of_le_length (by decide),
    List.take_append_of_le_length (by decide)] at h2
  exact absurd h2 (by decide)

/-- C7. `CheckSpecialChars` evaluates the per-character scan (emoji test, then
forbidden-set test) over the whole message before the repeated-punctuation
search: whenever some character of the message is flagged by the per-character
tests, the result is that scan's emoji or forbidden-character diagnostic, and
never a repeated-punctuation diagnostic — even if the message also contains
one of the four repeated sequences. -/
theorem claim_C7 :
    (∀ msg allowed, (∃ r ∈ msg.data, charHit (buildForbiddenSet allowed) r = true) →
      ∃ r, CheckSpecialChars msg allowed = emojiDiag r ∨
           CheckSpecialChars msg allowed = forbiddenDiag r) ∧
    (∀ msg allowed, (∃ r ∈ msg.data, charHit (buildForbiddenSet allowed) r = true) →
      ∀ seq, CheckSpecialChars msg allowed ≠ repeatedDiag seq) ∧
    (∀ r seq, emojiDiag r ≠ repeatedDiag seq) ∧
    (∀ r seq, forbiddenDiag r ≠ repeatedDiag seq) := by
  have main : ∀ msg allowed,
      (∃ r ∈ msg.data, charHit (buildForbiddenSet allowed) r = true) →
      ∃ r, CheckSpecialChars msg allowed = emojiDiag r ∨
           CheckSpecialChars msg allowed = forbiddenDiag r := by
    intro msg allowed h
    obtain ⟨r, hro⟩ := scan_some_of_hit (buildForbiddenSet allowed) msg.data h
    refine ⟨r, ?_⟩
    rcases hro with hs | hs
    · exact Or.inl (by simp [CheckSpecialChars, hs])
    · exact Or.inr (by simp [CheckSpecialChars, hs])
  refine ⟨main, ?_, emojiDiag_ne_repeatedDiag, forbiddenDiag_ne_repeatedDiag⟩
  intro msg allowed h seq
  obtain ⟨r, hro⟩ := main msg allowed h
  rcases hro with hs | hs
  · rw [hs]
    exact emojiDiag_ne_repeatedDiag r seq
  · rw [hs]
    exact forbiddenDiag_ne_repeatedDiag r seq

theorem data_mk (l : List Char) : (String.mk l).data = l := rfl

theorem and_contains_false (b : Bool) {l : List Char} {r : Char}
    (h : l.contains r = false) : (b && l.contains r) = false := by
  rw [h, Bool.and_false]

theorem isEmoji_ascii (r : Char) (h : r.toNat ≤ 0x7F) : isEmoji r = false := by
  refine Bool.eq_false_iff.mpr ?_
  intro he
  simp only [isEmoji, goSo, inRange, Bool.or_eq_true, decide_eq_true_eq,
    beq_iff_eq] at he
  omega

theorem buildForbidden_not_mem_of_allowed (allowed : String) (r : Char)
    (h : allowed.data.contains r = true) :
    (buildForbiddenSet allowed).contains r = false := by
  refine Bool.eq_false_iff.mpr ?_
  intro hc
  have hmem : r ∈ buildForbiddenSet allowed := by simpa using hc
  have := List.mem_filter.mp hmem
  simp only [h] at this
  exact absurd this.2 (by simp)

theorem buildForbidden_sub_default (allowed : String) (r : Char)
    (h : defaultForbiddenASCII.data.contains r = false) :
    (buildForbiddenSet allowed).contains r = false := by
  refine Bool.eq_false_iff.mpr ?_
  intro hc
  have hmem : r ∈ buildForbiddenSet allowed := by simpa using hc
  have hd : r ∈ defaultForbiddenASCII.data := (List.mem_filter.mp hmem).1
  rw [Bool.eq_false_iff] at h
  exact h (by simpa using hd)

theorem safePunct_not_default (r : Char) (h : safePunct.contains r = true) :
    defaultForbiddenASCII.data.contains r = false := by
  have hmem : r ∈ safePunct := by simpa using h
  fin_cases hmem <;> decide

/-- Every character kept by `cleanLoop` passes the per-character scan of
`CheckSpecialChars` with the same allow-list. -/
theorem scan_clean_none (allowed : String) (l : List Char) :
    checkSpecialScan (buildForbiddenSet allowed) (cleanLoop allowed.data l) = none := by
  induction l with
  | nil => rfl
  | cons r rest ih =>
    simp only [cleanLoop]
    by_cases h1 : 0x7F < r.toNat
    · rw [if_pos h1]
      exact ih
    · rw [if_neg h1]
      have hascii : r.toNat ≤ 0x7F := by omega
      have hemoji := isEmoji_ascii r hascii
      by_cases h2 : allowed.data.contains r = true
      · rw [if_pos h2]
        simp only [checkSpecialScan]
        rw [if_neg (by simp [hemoji])]
        rw [and_contains_false _ (buildForbidden_not_mem_of_allowed allowed r h2)]
        rw [if_neg (by simp)]
        exact ih
      · rw [if_neg h2]
        by_cases h3 : defaultForbiddenASCII.data.contains r = true
        · rw [if_pos h3]
          exact ih
        · rw [if_neg h3]
          by_cases h4 : safePunct.contains r = true
          · rw [if_pos h4]
            simp only [checkSpecialScan]
            rw [if_neg (by simp [hemoji])]
            have hnf := buildForbidden_sub_default allowed r
              (safePunct_not_default r h4)
            rw [and_contains_false _ hnf, if_neg (by simp)]
            exact ih
          · rw [if_neg h4]
            by_cases h5 : (goIsPunct r || goIsSymbol r) = true
            · rw [if_pos h5]
              exact ih
            · rw [if_neg h5]
              simp only [Bool.or_eq_true] at h5
              push_neg at h5
              have hp : goIsPunct r = false := Bool.eq_false_iff.mpr h5.1
              have hs : goIsSymbol r = false := Bool.eq_false_iff.mpr h5.2
              simp only [checkSpecialScan]
              rw [if_neg (by simp [hemoji])]
              rw [hp, hs, Bool.and_false, Bool.or_false, Bool.false_and]
              rw [if_neg (by simp)]
              exact ih

/-- C8 counterexample. `".!.!."` (no allow-list) is rejected with a
forbidden-character violation — not a repeated-punctuation one — yet applying
`cleanSpecialMessage` yields `"..."`, on which the rule still reports a
violation, so the round-trip property fails outside the claim's stated
exception. -/
theorem claim_C8_counterexample :
    CheckSpecialChars ".!.!." "" = forbiddenDiag '!' ∧
    forbiddenDiag '!' ≠ "" ∧
    cleanSpecialMessage ".!.!." "" = "..." ∧
    CheckSpecialChars (cleanSpecialMessage ".!.!." "") "" = repeatedDiag "..." ∧
    repeatedDiag "..." ≠ "" := by decide

/-- C8 as amended. Re-running `CheckSpecialChars` on the output of
`cleanSpecialMessage` never reports a per-character violation: the result
equals `checkRepeatedPunctuation` of the cleaned message. Consequently the
round trip yields no violation exactly when the cleaned message no longer
contains any of the four repeated-punctuation sequences; a violation survives
when such a sequence remains (for example one built from "safe" or
allow-listed characters) or emerges after the interleaved characters are
removed. -/
theorem claim_C8 (msg allowed : String) :
    CheckSpecialChars (cleanSpecialMessage msg allowed) allowed =
      checkRepeatedPunctuation (cleanSpecialMessage msg allowed) := by
  by_cases hm : (msg == "") = true
  · have hme : msg = "" := by rwa [beq_iff_eq] at hm
    subst hme
    rfl
  · rw [Bool.not_eq_true] at hm
    simp only [cleanSpecialMessage, hm, Bool.false_eq_true, if_false]
    simp only [CheckSpecialChars, data_mk]
    rw [scan_clean_none]

end Loglinter
